import Mathlib

/-!
Verification of the interactive text-selection / inline-translation engine of the
lingo-scraper frontend (`src/components/NewsViewer.tsx`, `src/pages/Space.tsx`,
`src/lib/api.ts`), as a shallow embedding in Lean 4.

Strings are modelled as `List Char`.  The JavaScript Unicode character classes
`\p{L}` / `\p{N}` are modelled by `Char.isAlpha` / `Char.isDigit`; every concrete
character appearing in the claims and examples («, comma, hyphen, apostrophe,
exclamation mark, ASCII letters and digits) is classified identically by the model
and by the Unicode property classes.  The JavaScript `\s` class is modelled by the
usual ASCII whitespace characters.
-/

namespace Lingo

/-- Model of the JS regex class `\s` (whitespace). -/
def isWsChar (c : Char) : Bool :=
  c = ' ' || c = '\t' || c = '\n' || c = '\r' || c = '\x0b' || c = '\x0c'

/-- Model of the JS regex class `[\p{L}\p{N}'-]` used by
`normalizeTokenForTranslation` in `NewsViewer.tsx`: Unicode letter, Unicode number,
apostrophe or hyphen. -/
def isKeptChar (c : Char) : Bool :=
  c.isAlpha || c.isDigit || c = '\'' || c = '-'

/-- Model of the JS regex class `[\p{L}\p{N}']` used by `extractWords` in
`src/lib/api.ts` (note: no hyphen there). -/
def isApiWordChar (c : Char) : Bool :=
  c.isAlpha || c.isDigit || c = '\''

/-- JS `String.prototype.trim` on our character-list strings. -/
def jsTrim (s : List Char) : List Char :=
  ((s.dropWhile isWsChar).reverse.dropWhile isWsChar).reverse

/-- `token.replace(/^[^\p{L}\p{N}'-]+/u, "")`: delete the maximal leading run of
characters outside the kept class. -/
def stripLeadingBoundary (s : List Char) : List Char :=
  s.dropWhile (fun c => !isKeptChar c)

/-- `token.replace(/[^\p{L}\p{N}'-]+$/u, "")`: delete the maximal trailing run of
characters outside the kept class. -/
def stripTrailingBoundary (s : List Char) : List Char :=
  (s.reverse.dropWhile (fun c => !isKeptChar c)).reverse

/-- `normalizeTokenForTranslation` from `NewsViewer.tsx`:
strip the leading boundary run, then the trailing boundary run, then trim. -/
def normalizeTokenForTranslation (s : List Char) : List Char :=
  jsTrim (stripTrailingBoundary (stripLeadingBoundary s))

/-- The leading boundary captured by `fragment.match(/^[^\p{L}\p{N}'-]+/u)`. -/
def leadingBoundaryOf (s : List Char) : List Char :=
  s.takeWhile (fun c => !isKeptChar c)

/-- The trailing boundary captured by `fragment.match(/[^\p{L}\p{N}'-]+$/u)`. -/
def trailingBoundaryOf (s : List Char) : List Char :=
  (s.reverse.takeWhile (fun c => !isKeptChar c)).reverse

/-- `text.split(/(\s+)/)` with empty fragments removed (the code skips
zero-length fragments): the list of maximal runs of same-whitespace-class
characters, in order.  Adjacent runs alternate between whitespace and
non-whitespace, and their concatenation is the input. -/
def rawSegments : List Char → List (List Char)
  | [] => []
  | [c] => [[c]]
  | c :: d :: cs =>
    if isWsChar c == isWsChar d then
      match rawSegments (d :: cs) with
      | [] => [[c]]
      | seg :: segs => (c :: seg) :: segs
    else
      [c] :: rawSegments (d :: cs)

/-- One `TokenRecord` of `NewsViewer.tsx`. -/
structure TokenRecord where
  key : String
  token : List Char
  normalized : List Char
  leading : List Char
  trailing : List Char
  separatorAfter : List Char
  deriving Repr, DecidableEq

/-- Building the record for one word fragment (body of the word branch of the
`rawSegments.forEach` loop). -/
def mkTokenRecord (keyBase : String) (wordCounter : Nat) (fragment : List Char) :
    TokenRecord :=
  { key := keyBase ++ "-word-" ++ toString wordCounter
    token := fragment
    normalized := normalizeTokenForTranslation fragment
    leading := leadingBoundaryOf fragment
    trailing := trailingBoundaryOf fragment
    separatorAfter := [] }

/-- `lastWordRecord.separatorAfter = fragment`: mutate the most recently produced
record.  With no previous word (`lastWordRecord === null`) nothing happens. -/
def setLastSeparator : List TokenRecord → List Char → List TokenRecord
  | [], _ => []
  | [r], sep => [{ r with separatorAfter := sep }]
  | r :: s :: rest, sep => r :: setLastSeparator (s :: rest) sep

/-- The `rawSegments.forEach` loop of `renderInteractiveText`, restricted to the
token-record bookkeeping: empty fragments are skipped, word fragments append a
fresh record (keyed by the running word counter, which equals the number of word
records so far), whitespace fragments are written into the previous record's
`separatorAfter`. -/
def buildTokens (keyBase : String) : List (List Char) → List TokenRecord → List TokenRecord
  | [], acc => acc
  | f :: rest, acc =>
    if f.isEmpty then
      buildTokens keyBase rest acc
    else if f.all isWsChar then
      buildTokens keyBase rest (setLastSeparator acc f)
    else
      buildTokens keyBase rest (acc ++ [mkTokenRecord keyBase (acc.length) f])

/-- The full token registry produced by running `renderInteractiveText` on one
text block: tokenize, then build the records. -/
def tokensOf (keyBase : String) (text : List Char) : List TokenRecord :=
  buildTokens keyBase (rawSegments text) []

/-- Concatenating every token's text with its recorded trailing separator, in
order (`token text + separatorAfter`) — the round-trip of the claim. -/
def reconcatTokens (tokens : List TokenRecord) : List Char :=
  tokens.flatMap (fun r => r.token ++ r.separatorAfter)

/-- The maximal runs of characters satisfying `p`, in order (the list of matches
of `match(/p+/g)`, and of the non-empty fields of `split` on the complement). -/
def fieldsBy (p : Char → Bool) : List Char → List (List Char)
  | [] => []
  | [c] => if p c then [[c]] else []
  | c :: d :: cs =>
    if p c then
      if p d then
        match fieldsBy p (d :: cs) with
        | [] => [[c]]
        | r :: rs => (c :: r) :: rs
      else [c] :: fieldsBy p (d :: cs)
    else fieldsBy p (d :: cs)

/-- JS `replace(/\s+/g, " ")`: collapse every maximal whitespace run to a single
space. -/
def collapseWs : List Char → List Char
  | [] => []
  | c :: cs =>
    if isWsChar c then
      match cs with
      | [] => [' ']
      | d :: _ => if isWsChar d then collapseWs cs else ' ' :: collapseWs cs
    else c :: collapseWs cs

/-- JS `value.split("\n")`: the (possibly empty) parts between newline
characters; the result always has one more part than there are newlines. -/
def splitOnNl : List Char → List (List Char)
  | [] => [[]]
  | c :: cs =>
    if c = '\n' then [] :: splitOnNl cs
    else
      match splitOnNl cs with
      | [] => [[c]]
      | p :: ps => (c :: p) :: ps

/-! ### Selection Controller state (`NewsViewer.tsx` component state) -/

/-- `lastSelectionRef.current`'s shape (`SelectionSnapshot` in the source). -/
structure SelectionSnapshot where
  keys : List String
  normalized : Option (List Char)
  deriving Repr, DecidableEq

/-- The selection-related component state of `NewsViewer`. -/
structure ViewerState where
  selectionKeys : List String
  selectionNormalized : Option (List Char)
  selectionBoundaries : Option (List Char × List Char)
  selectionOriginalLabel : Option (List Char)
  lastSelection : Option SelectionSnapshot
  pointerSelecting : Bool
  anchorKey : Option String
  deriving Repr, DecidableEq

/-- The initial (`Idle`) viewer state. -/
def viewerInit : ViewerState :=
  { selectionKeys := []
    selectionNormalized := none
    selectionBoundaries := none
    selectionOriginalLabel := none
    lastSelection := none
    pointerSelecting := false
    anchorKey := none }

/-- `clearSelection`: reset every piece of selection state and emit `null`
through `onSelectionChange`.  The second component is the emitted value
(`some none` = `onSelectionChange(null)` was called). -/
def clearSelection (s : ViewerState) : ViewerState × Option (Option (List Char)) :=
  ({ s with
      selectionKeys := []
      selectionNormalized := none
      selectionBoundaries := none
      selectionOriginalLabel := none
      lastSelection := none
      pointerSelecting := false
      anchorKey := none },
   some none)

/-- `originalPieces.join("")` of `applySelection`: every record contributes its
token text followed by its separator, except the last record, which contributes
only its token text. -/
def joinOriginalPieces : List TokenRecord → List Char
  | [] => []
  | [r] => r.token
  | r :: s :: rest => r.token ++ r.separatorAfter ++ joinOriginalPieces (s :: rest)

/-- `applySelection(startKey, endKey)` from `NewsViewer.tsx`: resolve both keys
in the registry, order the indices, take the inclusive slice, derive the
normalized phrase / boundaries / label, write them to state and return the
snapshot.  Returns `none` leaving the state untouched when the registry is
empty or either key is absent. -/
def applySelection (tokens : List TokenRecord) (s : ViewerState)
    (startKey endKey : String) : Option SelectionSnapshot × ViewerState :=
  if tokens.length = 0 then (none, s)
  else
    match tokens.findIdx? (fun item => item.key = startKey),
          tokens.findIdx? (fun item => item.key = endKey) with
    | some startIndex, some endIndex =>
      let fromIdx := if startIndex ≤ endIndex then startIndex else endIndex
      let toIdx := if startIndex ≤ endIndex then endIndex else startIndex
      let slice := (tokens.drop fromIdx).take (toIdx + 1 - fromIdx)
      let keys := slice.map (fun item => item.key)
      let normalizedJoined :=
        jsTrim (collapseWs
          (List.intercalate [' ']
            ((slice.map (fun item => item.normalized)).filter (fun n => !n.isEmpty))))
      let normalizedValue := if normalizedJoined.length > 0 then some normalizedJoined else none
      let originalLabel := jsTrim (joinOriginalPieces slice)
      let snapshot : SelectionSnapshot := { keys := keys, normalized := normalizedValue }
      (some snapshot,
       { s with
          selectionKeys := keys
          selectionNormalized := normalizedValue
          selectionBoundaries :=
            if slice.isEmpty then none
            else some ((slice.head?.map (·.leading)).getD [],
                       (slice.getLast?.map (·.trailing)).getD [])
          selectionOriginalLabel := if originalLabel.isEmpty then none else some originalLabel
          lastSelection := some snapshot })
    | _, _ => (none, s)

/-- `finalizeSelection` (run by the global `pointerup`/`pointercancel`
listener): when a drag is in progress, stop it and emit the last snapshot's
normalized phrase (`?? null`). -/
def finalizeSelection (s : ViewerState) : ViewerState × Option (Option (List Char)) :=
  if !s.pointerSelecting then (s, none)
  else
    ({ s with pointerSelecting := false, anchorKey := none },
     some (s.lastSelection.bind (·.normalized)))

/-- `handlePointerDown(tokenKey)` for a primary pointer: toggle-off when the
current selection is exactly this single token and shift is not held; otherwise
start (or extend, with shift) a drag selection anchored accordingly. -/
def handlePointerDown (tokens : List TokenRecord) (s : ViewerState)
    (tokenKey : String) (shiftKey : Bool) : ViewerState × Option (Option (List Char)) :=
  if !shiftKey && s.selectionKeys = [tokenKey] then
    clearSelection s
  else
    let anchorKey :=
      match shiftKey, s.selectionKeys with
      | true, k :: _ => k
      | _, _ => tokenKey
    let s1 := { s with anchorKey := some anchorKey, pointerSelecting := true }
    match applySelection tokens s1 anchorKey tokenKey with
    | (none, s2) => ({ s2 with pointerSelecting := false, anchorKey := none }, none)
    | (some _, s2) => (s2, none)

/-! ### Translation Coordinator (`Space.tsx` page state) -/

/-- `normalizeSelectionSegment` from `Space.tsx` — identical text to
`normalizeTokenForTranslation`. -/
def normalizeSelectionSegment (s : List Char) : List Char :=
  jsTrim (stripTrailingBoundary (stripLeadingBoundary s))

/-- `buildNormalizedSelection` from `Space.tsx`: split on whitespace, normalize
each segment, drop the empty ones, join with single spaces. -/
def buildNormalizedSelection (input : List Char) : List Char :=
  List.intercalate [' ']
    (((fieldsBy (fun c => !isWsChar c) input).map normalizeSelectionSegment).filter
      (fun seg => !seg.isEmpty))

/-- `selectedTextInfo`'s shape in `Space.tsx`. -/
structure SelectedTextInfo where
  original : List Char
  normalized : List Char
  nonce : Nat
  deriving Repr, DecidableEq

/-- The translation-related page state of `Space.tsx`.  An `AbortController` is
modelled by a numeric identity: `controller` is `translationControllerRef`,
`aborted` records every identity on which `abort()` has been called, and
`inFlight` records every issued `translateWord` request not yet settled. -/
structure SpaceState where
  selectedTextInfo : Option SelectedTextInfo
  translatedWord : Option (List Char)
  detectedLanguage : Option (List Char)
  isTranslatingWord : Bool
  translationError : Option (List Char)
  controller : Option Nat
  nextControllerId : Nat
  aborted : List Nat
  inFlight : List Nat
  nextNonce : Nat
  deriving Repr, DecidableEq

/-- The page state at mount. -/
def spaceInit : SpaceState :=
  { selectedTextInfo := none
    translatedWord := none
    detectedLanguage := none
    isTranslatingWord := false
    translationError := none
    controller := none
    nextControllerId := 0
    aborted := []
    inFlight := []
    nextNonce := 0 }

/-- `translationControllerRef.current?.abort()`: mark the current controller (if
any) aborted. -/
def abortCurrent (s : SpaceState) : List Nat :=
  match s.controller with
  | none => s.aborted
  | some id => id :: s.aborted

/-- `handleSelectionChange(text)` from `Space.tsx`, composed with the
`selectedTextInfo` effect that reacts to it (the effect aborts the superseded
controller, creates a fresh one and issues `translateWord`; with an empty
selection it clears all translation state instead). -/
def selectionChange (s : SpaceState) (text : Option (List Char)) : SpaceState :=
  let original := jsTrim (collapseWs (text.getD []))
  if original.isEmpty then
    { s with
        controller := none
        aborted := abortCurrent s
        selectedTextInfo := none
        translatedWord := none
        detectedLanguage := none
        translationError := none
        isTranslatingWord := false }
  else
    { s with
        selectedTextInfo := some
          { original := original
            normalized := buildNormalizedSelection original
            nonce := s.nextNonce }
        nextNonce := s.nextNonce + 1
        translatedWord := none
        detectedLanguage := none
        translationError := none
        isTranslatingWord := true
        controller := some s.nextControllerId
        nextControllerId := s.nextControllerId + 1
        aborted := abortCurrent s
        inFlight := s.nextControllerId :: s.inFlight }

/-- How a `translateWord` promise can settle: fulfilled, rejected with a
non-abort error, or rejected with `AbortError`. -/
inductive Outcome where
  | success (translatedText : List Char) (detectedLanguage : Option (List Char))
  | failure (message : List Char)
  | abortError
  deriving Repr, DecidableEq

/-- Which settlements the `fetch` semantics allow: a request settles at most
once, and an aborted request can only reject with `AbortError`. -/
def settleEnabled (s : SpaceState) (id : Nat) : Outcome → Bool
  | .abortError => s.inFlight.contains id && s.aborted.contains id
  | _ => s.inFlight.contains id && !s.aborted.contains id

/-- The settlement handlers of the translation effect: `.then` stores the
result, `.catch` swallows `AbortError` and stores other messages, `.finally`
clears the loading flag only when the settling request is still the current
one (`translationControllerRef.current === controller`). -/
def applySettle (s : SpaceState) (id : Nat) (o : Outcome) : SpaceState :=
  let s1 :=
    match o with
    | .success tw dl => { s with translatedWord := some tw, detectedLanguage := dl }
    | .failure msg =>
        { s with translationError := some msg, translatedWord := none, detectedLanguage := none }
    | .abortError => s
  let s2 :=
    if s1.controller = some id then
      { s1 with controller := none, isTranslatingWord := false }
    else s1
  { s2 with inFlight := s2.inFlight.erase id }

/-- One event of the coordinator: a selection change reaching
`handleSelectionChange`, or a settlement of an issued request. -/
inductive SpaceEvent where
  | selChange (text : Option (List Char))
  | settle (id : Nat) (o : Outcome)
  deriving Repr, DecidableEq

/-- One step of the coordinator.  A settlement the `fetch` semantics do not
allow cannot occur and leaves the state unchanged. -/
def stepE (s : SpaceState) : SpaceEvent → SpaceState
  | .selChange t => selectionChange s t
  | .settle id o => if settleEnabled s id o then applySettle s id o else s

/-- Run a list of events in order. -/
def runE (s : SpaceState) : List SpaceEvent → SpaceState
  | [] => s
  | e :: es => runE (stepE s e) es

/-! ### Inline Renderer (`renderInteractiveText` in `NewsViewer.tsx`) -/

/-- One entry of the `segments` array: an interactive word, or a whitespace gap
with its neighbouring word keys. -/
inductive Segment where
  | word (key : String) (record : TokenRecord)
  | gap (value : List Char) (prevWordKey : Option String) (nextWordKey : Option String)
  deriving Repr, DecidableEq

/-- The keys of the word segments, in order. -/
def wordKeys : List Segment → List String
  | [] => []
  | .word k _ :: rest => k :: wordKeys rest
  | .gap _ _ _ :: rest => wordKeys rest

/-- The forward pass of the segment-building loop: words get keys from the
running counter, gaps remember the key of the word before them. -/
def buildSegmentsFwd (keyBase : String) :
    List (List Char) → Nat → Option String → List Segment
  | [], _, _ => []
  | f :: rest, wordCounter, lastWordKey =>
    if f.isEmpty then buildSegmentsFwd keyBase rest wordCounter lastWordKey
    else if f.all isWsChar then
      .gap f lastWordKey none :: buildSegmentsFwd keyBase rest wordCounter lastWordKey
    else
      let tokenKey := keyBase ++ "-word-" ++ toString wordCounter
      .word tokenKey (mkTokenRecord keyBase wordCounter f) ::
        buildSegmentsFwd keyBase rest (wordCounter + 1) (some tokenKey)

/-- The key of the first word segment of the list, if any. -/
def firstWordKeyOf : List Segment → Option String
  | [] => none
  | .word k _ :: _ => some k
  | .gap _ _ _ :: rest => firstWordKeyOf rest

/-- The backward pass: each gap's `nextWordKey` is the key of the nearest word
segment after it. -/
def assignNextWordKeys : List Segment → List Segment
  | [] => []
  | .word k r :: rest => .word k r :: assignNextWordKeys rest
  | .gap v p _ :: rest => .gap v p (firstWordKeyOf rest) :: assignNextWordKeys rest

/-- The full segment list `renderInteractiveText` walks for one text block. -/
def segmentsOf (keyBase : String) (text : List Char) : List Segment :=
  assignNextWordKeys (buildSegmentsFwd keyBase (rawSegments text) 0 none)

/-- One rendered node: a `<br>`, a whitespace span, or an interactive word span
with its displayed text, `data-original` attribute, active marker and
translation marker. -/
inductive RenderNode where
  | lineBreak
  | gapSpan (text : List Char)
  | tokenSpan (key : String) (display : List Char) (dataOriginal : List Char)
      (isSelected : Bool) (translationActive : Bool)
  deriving Repr, DecidableEq

/-- The props/state the render walk reads. -/
structure RenderParams where
  selectionKeys : List String
  selectionNormalized : Option (List Char)
  selectionOriginalLabel : Option (List Char)
  activeSelectionNormalized : Option (List Char)
  translatedWord : Option (List Char)
  isTranslating : Bool
  deriving Repr, DecidableEq

/-- JS truthiness of a nullable string. -/
def isTruthy : Option (List Char) → Bool
  | none => false
  | some s => !s.isEmpty

/-- The `hasActiveTranslation` guard of `renderInteractiveText`. -/
def hasActiveTranslation (p : RenderParams) : Bool :=
  isTruthy p.selectionNormalized &&
    isTruthy p.activeSelectionNormalized &&
    isTruthy p.translatedWord &&
    p.activeSelectionNormalized == p.selectionNormalized &&
    !p.isTranslating

/-- `translationLabel`: `selectionOriginalLabel ?? selectionNormalized ?? ""`. -/
def translationLabelOf (p : RenderParams) : List Char :=
  (p.selectionOriginalLabel.getD (p.selectionNormalized.getD []))

/-- Rendering one whitespace gap: split on newlines, a `<br>` before every part
but the first, a span for every non-empty part. -/
def renderGapNodes (value : List Char) : List RenderNode :=
  match splitOnNl value with
  | [] => []
  | part0 :: parts =>
    (if part0.isEmpty then [] else [.gapSpan part0]) ++
      parts.flatMap (fun part =>
        .lineBreak :: (if part.isEmpty then [] else [.gapSpan part]))

/-- Rendering one segment (`segments.forEach` body). -/
def renderSegment (p : RenderParams) : Segment → List RenderNode
  | .gap value prevKey nextKey =>
    if hasActiveTranslation p &&
        (match prevKey with | some k => p.selectionKeys.contains k | none => false) &&
        (match nextKey with | some k => p.selectionKeys.contains k | none => false) then
      []
    else renderGapNodes value
  | .word tokenKey record =>
    let isSelected := p.selectionKeys.contains tokenKey
    let isSelectionStart := isSelected && (p.selectionKeys.head? == some tokenKey)
    let showInlineTranslation := isSelectionStart && hasActiveTranslation p
    if isSelected && hasActiveTranslation p && !isSelectionStart then []
    else
      let displayValue :=
        if showInlineTranslation then
          record.leading ++ p.translatedWord.getD [] ++ record.trailing
        else record.token
      let dataOriginal :=
        if showInlineTranslation then
          (if (translationLabelOf p).isEmpty then record.token else translationLabelOf p)
        else record.token
      [.tokenSpan tokenKey displayValue dataOriginal isSelected showInlineTranslation]

/-- The full render walk over a segment list. -/
def renderText (p : RenderParams) (segments : List Segment) : List RenderNode :=
  segments.flatMap (renderSegment p)

/-- Whether a node is the inline-translation node (`data-translation-active`). -/
def isTranslationNode : RenderNode → Bool
  | .tokenSpan _ _ _ _ translationActive => translationActive
  | _ => false

/-- The word key a node renders, if it is a word span. -/
def nodeKey : RenderNode → Option String
  | .tokenSpan k _ _ _ _ => some k
  | _ => none

/-! ### `extractWords` (`src/lib/api.ts`) -/

/-- The `for … of matches` loop over the JS `Set`: skip seen tokens, stop as
soon as the set has reached `limit` entries.  The accumulator holds the set's
insertion order reversed. -/
def collectUnique (limit : Nat) : List (List Char) → List (List Char) → List (List Char)
  | [], acc => acc.reverse
  | t :: ts, acc =>
    if t ∈ acc then collectUnique limit ts acc
    else if limit ≤ acc.length + 1 then (t :: acc).reverse
    else collectUnique limit ts (t :: acc)

/-- `extractWords(text, limit = 500)` from `src/lib/api.ts`: the distinct
matches of `[\p{L}\p{N}']+` over the lower-cased text, capped at `limit`. -/
def extractWords (text : List Char) (limit : Nat := 500) : List (List Char) :=
  let matchRuns := fieldsBy isApiWordChar (text.map Char.toLower)
  if matchRuns.isEmpty then [] else collectUnique limit matchRuns []

/-- Modelled from the spec ("distinct matches …, in order of first
occurrence"): first-occurrence deduplication, with the elements already taken
excluded via `acc`. -/
def dedupExcl (acc : List (List Char)) : List (List Char) → List (List Char)
  | [] => []
  | t :: ts => if t ∈ acc then dedupExcl acc ts else t :: dedupExcl (t :: acc) ts

/-- The distinct elements of a list in order of first occurrence. -/
def distinctFirstOcc (l : List (List Char)) : List (List Char) :=
  dedupExcl [] l

/-- The coordinator's structural invariant: controller identities grow, the
live controller is never one that has been aborted, and every aborted identity
was previously allocated. -/
def SpaceInv (s : SpaceState) : Prop :=
  (∀ j, s.controller = some j → j ∉ s.aborted ∧ j < s.nextControllerId) ∧
    ∀ j ∈ s.aborted, j < s.nextControllerId

/-! ### Concrete data for the spec's end-to-end rendering example -/

/-- Render parameters for the example: selection "quick brown" of
"The quick brown fox", translated to "rápido marrom". -/
def exampleParams : RenderParams :=
  { selectionKeys := ["t-word-1", "t-word-2"]
    selectionNormalized := some "quick brown".data
    selectionOriginalLabel := some "quick brown".data
    activeSelectionNormalized := some "quick brown".data
    translatedWord := some "rápido marrom".data
    isTranslating := false }

/-- The segments before the selected span. -/
def exampleBefore : List Segment :=
  [.word "t-word-0" (mkTokenRecord "t" 0 "The".data),
   .gap [' '] (some "t-word-0") (some "t-word-1")]

/-- The segments of the selected span after its first word. -/
def exampleInner : List Segment :=
  [.gap [' '] (some "t-word-1") (some "t-word-2"),
   .word "t-word-2" (mkTokenRecord "t" 2 "brown".data)]

/-- The segments after the selected span. -/
def exampleAfter : List Segment :=
  [.gap [' '] (some "t-word-2") (some "t-word-3"),
   .word "t-word-3" (mkTokenRecord "t" 3 "fox".data)]

/-! ## Helper lemmas -/

theorem findIdx?_key_none (tokens : List TokenRecord) (k : String)
    (hk : k ∉ tokens.map TokenRecord.key) :
    tokens.findIdx? (fun item => item.key = k) = none := by
  rw [List.findIdx?_eq_none_iff]
  intro x hx
  simp only [decide_eq_false_iff_not]
  intro he
  exact hk (he ▸ List.mem_map_of_mem TokenRecord.key hx)

/-- `applySelection` is insensitive to the order of its two keys: the source
sorts the two resolved indices before slicing. -/
theorem applySelection_comm (tokens : List TokenRecord) (s : ViewerState)
    (a b : String) :
    applySelection tokens s a b = applySelection tokens s b a := by
  unfold applySelection
  by_cases hlen : tokens.length = 0
  · simp [hlen]
  · simp only [hlen, if_false]
    cases hfa : tokens.findIdx? (fun item => item.key = a) with
    | none =>
      cases hfb : tokens.findIdx? (fun item => item.key = b) <;> rfl
    | some i =>
      cases hfb : tokens.findIdx? (fun item => item.key = b) with
      | none => rfl
      | some j =>
        have hmin : (if i ≤ j then i else j) = (if j ≤ i then j else i) := by
          split_ifs <;> omega
        have hmax : (if i ≤ j then j else i) = (if j ≤ i then i else j) := by
          split_ifs <;> omega
        simp only [hmin, hmax]

/-! ## Claims -/

/-- C4: resolving a selection range in which the anchor key or the focus key is
absent from the current token registry returns `null` and leaves every piece of
displayed selection state (`selectionKeys`, `selectionNormalized`,
`selectionBoundaries`, `selectionOriginalLabel`) unchanged. -/
theorem applySelection_absent_key_safe (tokens : List TokenRecord)
    (s : ViewerState) (k1 k2 : String)
    (h : k1 ∉ tokens.map TokenRecord.key ∨ k2 ∉ tokens.map TokenRecord.key) :
    applySelection tokens s k1 k2 = (none, s) := by
  unfold applySelection
  by_cases hlen : tokens.length = 0
  · simp [hlen]
  · simp only [hlen, if_false]
    rcases h with hk | hk
    · rw [findIdx?_key_none tokens k1 hk]
    · rw [findIdx?_key_none tokens k2 hk]
      cases tokens.findIdx? (fun item => item.key = k1) <;> rfl

theorem applySelection_absent_key_safe_witness :
    ("zzz" ∉ (tokensOf "t" ['a', 'b']).map TokenRecord.key ∨
        "t-word-0" ∉ (tokensOf "t" ['a', 'b']).map TokenRecord.key) ∧
      applySelection (tokensOf "t" ['a', 'b']) viewerInit "zzz" "t-word-0" =
        (none, viewerInit) :=
  ⟨Or.inl (by decide),
   applySelection_absent_key_safe (tokensOf "t" ['a', 'b']) viewerInit "zzz" "t-word-0"
     (Or.inl (by decide))⟩

/-- C7: pointer-down without shift on the token that is the entire current
selection toggles the selection off: all selection state returns to the idle
values and `null` is emitted to the translation path. -/
theorem pointerDown_toggle_off (tokens : List TokenRecord) (s : ViewerState)
    (k : String) (h : s.selectionKeys = [k]) :
    handlePointerDown tokens s k false =
      ({ s with
          selectionKeys := []
          selectionNormalized := none
          selectionBoundaries := none
          selectionOriginalLabel := none
          lastSelection := none
          pointerSelecting := false
          anchorKey := none },
       some none) := by
  unfold handlePointerDown clearSelection
  simp [h]

theorem pointerDown_toggle_off_witness :
    handlePointerDown (tokensOf "t" ['a', 'b'])
        { viewerInit with selectionKeys := ["t-word-0"] } "t-word-0" false =
      ({ viewerInit with selectionKeys := [] }, some none) :=
  pointerDown_toggle_off (tokensOf "t" ['a', 'b'])
    { viewerInit with selectionKeys := ["t-word-0"] } "t-word-0" rfl

/-- C8: for two token keys both present in the registry, resolving the range
`(A, B)` and resolving the range `(B, A)` produce selection snapshots with the
same key list (anchor/focus order-independence). -/
theorem applySelection_order_independent (tokens : List TokenRecord)
    (s : ViewerState) (a b : String)
    (ha : a ∈ tokens.map TokenRecord.key) (hb : b ∈ tokens.map TokenRecord.key) :
    ((applySelection tokens s a b).1).map SelectionSnapshot.keys =
      ((applySelection tokens s b a).1).map SelectionSnapshot.keys := by
  rw [applySelection_comm]

theorem applySelection_order_independent_witness :
    "t-word-0" ∈ (tokensOf "t" ['a', ' ', 'b']).map TokenRecord.key ∧
      "t-word-1" ∈ (tokensOf "t" ['a', ' ', 'b']).map TokenRecord.key ∧
      ((applySelection (tokensOf "t" ['a', ' ', 'b']) viewerInit "t-word-0" "t-word-1").1).map
          SelectionSnapshot.keys =
        ((applySelection (tokensOf "t" ['a', ' ', 'b']) viewerInit "t-word-1" "t-word-0").1).map
          SelectionSnapshot.keys :=
  ⟨by decide, by decide,
   applySelection_order_independent (tokensOf "t" ['a', ' ', 'b']) viewerInit
     "t-word-0" "t-word-1" (by decide) (by decide)⟩

theorem head?_dropWhile_false (p : Char → Bool) (l : List Char) (c : Char)
    (h : (l.dropWhile p).head? = some c) : p c = false := by
  have h2 := List.head?_dropWhile_not p l
  rw [h] at h2
  exact h2

/-- C9: normalization deletes exactly one maximal leading run and one maximal
trailing run of characters outside the letter/number/apostrophe/hyphen class
(then trims residual whitespace) and changes nothing else: every token splits
as `lead ++ core ++ trail` with the runs entirely outside the class, the core
beginning and ending inside the class, and the normalized form being exactly
the trimmed core; in particular `normalize("«word,") = "word"` and
`normalize("it's") = "it's"`. -/
theorem normalize_strips_boundary_runs :
    (∀ t : List Char, ∃ lead core trail : List Char,
        t = lead ++ core ++ trail ∧
        (∀ c ∈ lead, isKeptChar c = false) ∧
        (∀ c ∈ trail, isKeptChar c = false) ∧
        (∀ c, core.head? = some c → isKeptChar c = true) ∧
        (∀ c, core.getLast? = some c → isKeptChar c = true) ∧
        normalizeTokenForTranslation t = jsTrim core) ∧
    normalizeTokenForTranslation "«word,".data = "word".data ∧
    normalizeTokenForTranslation "it's".data = "it's".data := by
  refine ⟨fun t => ?_, by decide, by decide⟩
  refine ⟨t.takeWhile (fun c => !isKeptChar c),
          stripTrailingBoundary (stripLeadingBoundary t),
          ((stripLeadingBoundary t).reverse.takeWhile (fun c => !isKeptChar c)).reverse,
          ?_, ?_, ?_, ?_, ?_, rfl⟩
  · have hrest : stripTrailingBoundary (stripLeadingBoundary t) ++
        ((stripLeadingBoundary t).reverse.takeWhile (fun c => !isKeptChar c)).reverse =
        stripLeadingBoundary t := by
      unfold stripTrailingBoundary
      rw [← List.reverse_append, List.takeWhile_append_dropWhile, List.reverse_reverse]
    rw [List.append_assoc, hrest]
    unfold stripLeadingBoundary
    rw [List.takeWhile_append_dropWhile]
  · intro c hc
    have := List.mem_takeWhile_imp hc
    simpa using this
  · intro c hc
    rw [List.mem_reverse] at hc
    have := List.mem_takeWhile_imp hc
    simpa using this
  · intro c hc
    unfold stripTrailingBoundary at hc
    rw [List.head?_reverse] at hc
    have hne : (stripLeadingBoundary t).reverse.dropWhile (fun c => !isKeptChar c) ≠ [] := by
      intro hnil
      rw [hnil] at hc
      simp at hc
    obtain ⟨u, hu⟩ := List.dropWhile_suffix
      (l := (stripLeadingBoundary t).reverse) (fun c => !isKeptChar c)
    have hglast : (stripLeadingBoundary t).reverse.getLast? = some c := by
      rw [← hu, List.getLast?_append_of_ne_nil u hne]
      exact hc
    rw [List.getLast?_reverse] at hglast
    unfold stripLeadingBoundary at hglast
    have := head?_dropWhile_false (fun c => !isKeptChar c) t c hglast
    simpa using this
  · intro c hc
    unfold stripTrailingBoundary at hc
    rw [List.getLast?_reverse] at hc
    have := head?_dropWhile_false (fun c => !isKeptChar c)
      (stripLeadingBoundary t).reverse c hc
    simpa using this

theorem collectUnique_take (limit : Nat) :
    ∀ (ts : List (List Char)) (acc : List (List Char)), acc.length < limit →
      collectUnique limit ts acc =
        acc.reverse ++ (dedupExcl acc ts).take (limit - acc.length) := by
  intro ts
  induction ts with
  | nil => intro acc _; simp [collectUnique, dedupExcl]
  | cons t ts ih =>
    intro acc hacc
    by_cases hmem : t ∈ acc
    · simp [collectUnique, dedupExcl, hmem, ih acc hacc]
    · by_cases hlim : limit ≤ acc.length + 1
      · have heq : limit - acc.length = 1 := by omega
        simp [collectUnique, dedupExcl, hmem, hlim, heq]
      · have hlt : (t :: acc).length < limit := by simp; omega
        have heq : limit - acc.length = (limit - (acc.length + 1)) + 1 := by omega
        simp [collectUnique, dedupExcl, hmem, hlim, ih _ hlt, heq, List.take_succ_cons]

theorem dedupExcl_nodup_not_mem :
    ∀ (ts acc : List (List Char)),
      (dedupExcl acc ts).Nodup ∧ ∀ x ∈ dedupExcl acc ts, x ∉ acc := by
  intro ts
  induction ts with
  | nil => intro acc; simp [dedupExcl]
  | cons t ts ih =>
    intro acc
    by_cases hmem : t ∈ acc
    · simpa [dedupExcl, hmem] using ih acc
    · obtain ⟨hnd, hmem2⟩ := ih (t :: acc)
      refine ⟨?_, ?_⟩
      · simp only [dedupExcl, hmem, if_false, List.nodup_cons]
        exact ⟨fun hx => (hmem2 t hx) (List.mem_cons_self t _), hnd⟩
      · intro x hx
        simp only [dedupExcl, hmem, if_false, List.mem_cons] at hx
        rcases hx with rfl | hx
        · exact hmem
        · exact fun hxa => hmem2 x hx (List.mem_cons_of_mem _ hxa)

/-- C10: `extractWords(text, limit)` returns the distinct maximal
letter/number/apostrophe runs of the lower-cased text in order of first
occurrence, truncated at `limit`; the result has no duplicates, never exceeds
`limit` entries, is empty when the text has no matching run, and the default
limit is 500. -/
theorem extractWords_distinct_matches :
    (∀ (text : List Char) (limit : Nat), 1 ≤ limit →
        extractWords text limit =
          (distinctFirstOcc (fieldsBy isApiWordChar (text.map Char.toLower))).take limit ∧
        (extractWords text limit).Nodup ∧
        (extractWords text limit).length ≤ limit ∧
        (fieldsBy isApiWordChar (text.map Char.toLower) = [] →
          extractWords text limit = [])) ∧
    ∀ text : List Char, extractWords text = extractWords text 500 := by
  refine ⟨fun text limit hlim => ?_, fun _ => rfl⟩
  have heq : extractWords text limit =
      (distinctFirstOcc (fieldsBy isApiWordChar (text.map Char.toLower))).take limit := by
    unfold extractWords distinctFirstOcc
    by_cases hruns : (fieldsBy isApiWordChar (text.map Char.toLower)).isEmpty
    · rw [List.isEmpty_iff] at hruns
      simp [hruns, dedupExcl]
    · rw [if_neg (by simpa using hruns),
        collectUnique_take limit _ [] (by simpa using hlim)]
      simp
  refine ⟨heq, ?_, ?_, ?_⟩
  · rw [heq]
    exact ((dedupExcl_nodup_not_mem _ []).1).sublist (List.take_sublist _ _)
  · rw [heq, List.length_take]
    exact Nat.min_le_left _ _
  · intro hnil
    unfold extractWords
    simp [hnil]

theorem extractWords_distinct_matches_witness :
    (1 : Nat) ≤ 2 ∧
      extractWords ['b', ' ', 'a', '!', 'B'] 2 =
        (distinctFirstOcc
          (fieldsBy isApiWordChar (['b', ' ', 'a', '!', 'B'].map Char.toLower))).take 2 :=
  ⟨by decide, (extractWords_distinct_matches.1 ['b', ' ', 'a', '!', 'B'] 2 (by decide)).1⟩

theorem all_takeWhile (p : Char → Bool) (l : List Char) :
    (l.takeWhile p).all p = true := by
  rw [List.all_eq_true]
  intro c hc
  exact List.mem_takeWhile_imp hc

/-- `rawSegments` unfolds one maximal run at a time. -/
theorem rawSegments_cons_eq (c : Char) (cs : List Char) :
    rawSegments (c :: cs) =
      ((c :: cs).takeWhile (fun d => isWsChar d == isWsChar c)) ::
        rawSegments ((c :: cs).dropWhile (fun d => isWsChar d == isWsChar c)) := by
  induction cs generalizing c with
  | nil => simp [rawSegments, List.takeWhile, List.dropWhile]
  | cons d cs ih =>
    by_cases hcd : (isWsChar c == isWsChar d) = true
    · have hcd' : isWsChar c = isWsChar d := by simpa using hcd
      have hfun : (fun e => isWsChar e == isWsChar c) =
          (fun e => isWsChar e == isWsChar d) := by
        funext e
        rw [hcd']
      rw [show rawSegments (c :: d :: cs) =
          (match rawSegments (d :: cs) with
            | [] => [[c]]
            | seg :: segs => (c :: seg) :: segs) from by rw [rawSegments, if_pos hcd]]
      rw [ih d,
        List.takeWhile_cons_of_pos (p := fun e => isWsChar e == isWsChar c) (by simp),
        List.dropWhile_cons_of_pos (p := fun e => isWsChar e == isWsChar c) (by simp),
        hfun]
    · have hdc : ((fun e => isWsChar e == isWsChar c) d) = false := by
        simp only []
        cases hc2 : isWsChar c <;> cases hd2 : isWsChar d <;>
          simp_all
      rw [show rawSegments (c :: d :: cs) = [c] :: rawSegments (d :: cs) from by
          rw [rawSegments, if_neg hcd],
        List.takeWhile_cons_of_pos (p := fun e => isWsChar e == isWsChar c) (by simp),
        List.dropWhile_cons_of_pos (p := fun e => isWsChar e == isWsChar c) (by simp),
        List.takeWhile_cons_of_neg (p := fun e => isWsChar e == isWsChar c) (by simp [hdc]),
        List.dropWhile_cons_of_neg (p := fun e => isWsChar e == isWsChar c) (by simp [hdc])]

theorem setLastSeparator_append (acc : List TokenRecord) (r : TokenRecord)
    (sep : List Char) :
    setLastSeparator (acc ++ [r]) sep = acc ++ [{ r with separatorAfter := sep }] := by
  induction acc with
  | nil => rfl
  | cons a acc ih =>
    cases acc with
    | nil => rfl
    | cons b acc' =>
      show a :: setLastSeparator ((b :: acc') ++ [r]) sep =
        a :: ((b :: acc') ++ [{ r with separatorAfter := sep }])
      rw [ih]

theorem reconcatTokens_append (a b : List TokenRecord) :
    reconcatTokens (a ++ b) = reconcatTokens a ++ reconcatTokens b :=
  List.flatMap_append ..

theorem reconcatTokens_snoc (acc : List TokenRecord) (r : TokenRecord) :
    reconcatTokens (acc ++ [r]) =
      reconcatTokens acc ++ (r.token ++ r.separatorAfter) := by
  rw [reconcatTokens_append]
  simp [reconcatTokens]

/-- The word/gap loop preserves the text: starting from the fragments of a text
whose first character is not whitespace, the records reproduce the text after
the accumulated prefix. -/
theorem buildTokens_reconcat (base : String) :
    ∀ (n : Nat) (l : List Char), l.length ≤ n →
      (∀ c, l.head? = some c → isWsChar c = false) →
      ∀ acc : List TokenRecord,
        reconcatTokens (buildTokens base (rawSegments l) acc) =
          reconcatTokens acc ++ l := by
  intro n
  induction n with
  | zero =>
    intro l hl _ acc
    have hnil : l = [] := by
      cases l with
      | nil => rfl
      | cons c cs => simp at hl
    subst hnil
    simp [rawSegments, buildTokens]
  | succ n ih =>
    intro l hl hhead acc
    cases l with
    | nil => simp [rawSegments, buildTokens]
    | cons c cs =>
      have hc : isWsChar c = false := hhead c rfl
      rw [rawSegments_cons_eq]
      have hpred : (fun d => isWsChar d == isWsChar c) = (fun d => !isWsChar d) := by
        funext d
        rw [hc]
        cases isWsChar d <;> rfl
      rw [hpred]
      have hwcons : (c :: cs).takeWhile (fun d => !isWsChar d) =
          c :: cs.takeWhile (fun d => !isWsChar d) :=
        List.takeWhile_cons_of_pos (by simp [hc])
      have hsplit : ((c :: cs).takeWhile (fun d => !isWsChar d)) ++
          ((c :: cs).dropWhile (fun d => !isWsChar d)) = c :: cs :=
        List.takeWhile_append_dropWhile ..
      have hwne : ((c :: cs).takeWhile (fun d => !isWsChar d)).isEmpty = false := by
        rw [hwcons]
        rfl
      have hwnotws : ((c :: cs).takeWhile (fun d => !isWsChar d)).all isWsChar = false := by
        rw [hwcons]
        simp [List.all_cons, hc]
      rw [show buildTokens base
            (((c :: cs).takeWhile (fun d => !isWsChar d)) ::
              rawSegments ((c :: cs).dropWhile (fun d => !isWsChar d))) acc =
          buildTokens base (rawSegments ((c :: cs).dropWhile (fun d => !isWsChar d)))
            (acc ++ [mkTokenRecord base acc.length
              ((c :: cs).takeWhile (fun d => !isWsChar d))]) from by
        rw [buildTokens, hwne, hwnotws]
        rfl]
      have hlen' : ((c :: cs).dropWhile (fun d => !isWsChar d)).length ≤ n := by
        have h1 : (c :: cs).dropWhile (fun d => !isWsChar d) =
            cs.dropWhile (fun d => !isWsChar d) :=
          List.dropWhile_cons_of_pos (by simp [hc])
        have h2 : (cs.dropWhile (fun d => !isWsChar d)).length ≤ cs.length :=
          (List.dropWhile_sublist _).length_le
        have h3 : cs.length ≤ n := by simpa using hl
        rw [h1]
        omega
      cases hdrop : (c :: cs).dropWhile (fun d => !isWsChar d) with
      | nil =>
        rw [hdrop, List.append_nil] at hsplit
        rw [show rawSegments ([] : List Char) = [] from rfl,
          show ∀ a, buildTokens base [] a = a from fun _ => rfl,
          reconcatTokens_snoc, hsplit]
        simp [mkTokenRecord]
      | cons d ds =>
        have hd : isWsChar d = true := by
          have := head?_dropWhile_false (fun d => !isWsChar d) (c :: cs) d
            (by rw [hdrop]; rfl)
          simpa using this
        rw [hdrop] at hsplit
        rw [rawSegments_cons_eq d ds]
        have hpred2 : (fun e => isWsChar e == isWsChar d) = isWsChar := by
          funext e
          rw [hd]
          cases isWsChar e <;> rfl
        rw [hpred2]
        have hgcons : (d :: ds).takeWhile isWsChar = d :: ds.takeWhile isWsChar :=
          List.takeWhile_cons_of_pos (by simp [hd])
        have hgne : ((d :: ds).takeWhile isWsChar).isEmpty = false := by
          rw [hgcons]
          rfl
        have hgws : ((d :: ds).takeWhile isWsChar).all isWsChar = true :=
          all_takeWhile isWsChar (d :: ds)
        rw [show buildTokens base
              (((d :: ds).takeWhile isWsChar) ::
                rawSegments ((d :: ds).dropWhile isWsChar))
              (acc ++ [mkTokenRecord base acc.length
                ((c :: cs).takeWhile (fun d => !isWsChar d))]) =
            buildTokens base (rawSegments ((d :: ds).dropWhile isWsChar))
              (acc ++ [{ mkTokenRecord base acc.length
                ((c :: cs).takeWhile (fun d => !isWsChar d)) with
                  separatorAfter := (d :: ds).takeWhile isWsChar }]) from by
          rw [buildTokens, hgne, hgws]
          simp only [if_false, if_true, Bool.false_eq_true]
          rw [setLastSeparator_append]]
        have hlen'' : ((d :: ds).dropWhile isWsChar).length ≤ n := by
          have h2 : ((d :: ds).dropWhile isWsChar).length ≤ (d :: ds).length :=
            (List.dropWhile_sublist _).length_le
          have h3 : (d :: ds).length ≤ cs.length := by
            have h4 : (c :: cs).dropWhile (fun d => !isWsChar d) =
                cs.dropWhile (fun d => !isWsChar d) :=
              List.dropWhile_cons_of_pos (by simp [hc])
            have h5 : (cs.dropWhile (fun d => !isWsChar d)).length ≤ cs.length :=
              (List.dropWhile_sublist _).length_le
            rw [h4] at hdrop
            rw [← hdrop]
            exact h5
          have h6 : cs.length ≤ n := by simpa using hl
          omega
        have hhead'' : ∀ e, ((d :: ds).dropWhile isWsChar).head? = some e →
            isWsChar e = false := fun e he =>
          head?_dropWhile_false isWsChar (d :: ds) e he
        rw [ih _ hlen'' hhead'', reconcatTokens_snoc]
        have hsplit2 : ((d :: ds).takeWhile isWsChar) ++ ((d :: ds).dropWhile isWsChar) =
            d :: ds := List.takeWhile_append_dropWhile ..
        rw [show ({ mkTokenRecord base acc.length
              ((c :: cs).takeWhile (fun d => !isWsChar d)) with
                separatorAfter := (d :: ds).takeWhile isWsChar } : TokenRecord).token =
            (c :: cs).takeWhile (fun d => !isWsChar d) from rfl,
          show ({ mkTokenRecord base acc.length
              ((c :: cs).takeWhile (fun d => !isWsChar d)) with
                separatorAfter := (d :: ds).takeWhile isWsChar } : TokenRecord).separatorAfter =
            (d :: ds).takeWhile isWsChar from rfl]
        rw [List.append_assoc, List.append_assoc, hsplit2, hsplit]

/-- C3 (amended): re-concatenating every token's text with its recorded
trailing separator reproduces the input text with its maximal leading
whitespace run removed — in particular it reproduces the text exactly whenever
the text does not begin with whitespace. -/
theorem tokenizer_roundtrip_amended (base : String) (l : List Char) :
    reconcatTokens (tokensOf base l) = l.dropWhile isWsChar := by
  unfold tokensOf
  cases l with
  | nil => rfl
  | cons c cs =>
    by_cases hc : isWsChar c = true
    · rw [rawSegments_cons_eq]
      have hpred : (fun d => isWsChar d == isWsChar c) = isWsChar := by
        funext d
        rw [hc]
        cases isWsChar d <;> rfl
      rw [hpred]
      have hgcons : (c :: cs).takeWhile isWsChar = c :: cs.takeWhile isWsChar :=
        List.takeWhile_cons_of_pos (by simp [hc])
      have hgne : ((c :: cs).takeWhile isWsChar).isEmpty = false := by
        rw [hgcons]
        rfl
      have hgws : ((c :: cs).takeWhile isWsChar).all isWsChar = true :=
        all_takeWhile isWsChar (c :: cs)
      rw [show buildTokens base
            (((c :: cs).takeWhile isWsChar) ::
              rawSegments ((c :: cs).dropWhile isWsChar)) [] =
          buildTokens base (rawSegments ((c :: cs).dropWhile isWsChar)) [] from by
        rw [buildTokens, hgne, hgws]
        rfl]
      have hhead : ∀ e, ((c :: cs).dropWhile isWsChar).head? = some e →
          isWsChar e = false := fun e he =>
        head?_dropWhile_false isWsChar (c :: cs) e he
      rw [buildTokens_reconcat base ((c :: cs).dropWhile isWsChar).length _
        (Nat.le_refl _) hhead []]
      rfl
    · have hc' : isWsChar c = false := by simpa using hc
      rw [buildTokens_reconcat base (c :: cs).length _ (Nat.le_refl _)
        (fun e he => by
          rw [show e = c from by simpa using he.symm]
          exact hc') [],
        List.dropWhile_cons_of_neg (by simp [hc'])]
      rfl

/-- C3 counterexample: for the input `" a"` (leading whitespace) the
re-concatenation of token text + separatorAfter yields `"a"`, not the original
text. -/
theorem tokenizer_roundtrip_counterexample :
    reconcatTokens (tokensOf "t" [' ', 'a']) = ['a'] ∧
      ¬reconcatTokens (tokensOf "t" [' ', 'a']) = [' ', 'a'] := by
  decide

theorem renderText_append (p : RenderParams) (a b : List Segment) :
    renderText p (a ++ b) = renderText p a ++ renderText p b :=
  List.flatMap_append ..

theorem renderGapNodes_shape (v : List Char) :
    ∀ n ∈ renderGapNodes v, isTranslationNode n = false ∧ nodeKey n = none := by
  intro n hn
  unfold renderGapNodes at hn
  cases h : splitOnNl v with
  | nil =>
    rw [h] at hn
    simp at hn
  | cons q qs =>
    rw [h] at hn
    rcases List.mem_append.mp hn with h1 | h2
    · by_cases hq : q.isEmpty
      · rw [if_pos hq] at h1
        simp at h1
      · rw [if_neg hq] at h1
        have : n = RenderNode.gapSpan q := by simpa using h1
        subst this
        exact ⟨rfl, rfl⟩
    · obtain ⟨q2, _, hmem⟩ := List.mem_flatMap.mp h2
      rcases List.mem_cons.mp hmem with h3 | h3
      · subst h3
        exact ⟨rfl, rfl⟩
      · by_cases hq : q2.isEmpty
        · rw [if_pos hq] at h3
          simp at h3
        · rw [if_neg hq] at h3
          have : n = RenderNode.gapSpan q2 := by simpa using h3
          subst this
          exact ⟨rfl, rfl⟩

theorem renderSegment_not_selected_word (p : RenderParams) (k : String)
    (r : TokenRecord) (hk : k ∉ p.selectionKeys) :
    renderSegment p (.word k r) = [.tokenSpan k r.token r.token false false] := by
  unfold renderSegment
  have hcont : p.selectionKeys.contains k = false := by simpa using hk
  simp [hcont, hk]

theorem renderSegment_gap_cases (p : RenderParams) (v : List Char)
    (pk nk : Option String) :
    renderSegment p (.gap v pk nk) = [] ∨
      renderSegment p (.gap v pk nk) = renderGapNodes v := by
  simp only [renderSegment]
  split
  · left
    rfl
  · right
    rfl

theorem renderText_no_translation_nodes (p : RenderParams) (L : List Segment)
    (hL : ∀ k r, Segment.word k r ∈ L → k ∉ p.selectionKeys) :
    ∀ n ∈ renderText p L, isTranslationNode n = false ∧
      ∀ k, nodeKey n = some k → k ∉ p.selectionKeys := by
  intro n hn
  obtain ⟨seg, hseg, hmem⟩ := List.mem_flatMap.mp hn
  cases seg with
  | gap v pk nk =>
    rcases renderSegment_gap_cases p v pk nk with h | h <;> rw [h] at hmem
    · simp at hmem
    · have hshape := renderGapNodes_shape v n hmem
      refine ⟨hshape.1, fun k hk => ?_⟩
      rw [hshape.2] at hk
      cases hk
  | word k r =>
    have hk := hL k r hseg
    rw [renderSegment_not_selected_word p k r hk] at hmem
    have : n = RenderNode.tokenSpan k r.token r.token false false := by simpa using hmem
    subst this
    refine ⟨rfl, fun k' hk' => ?_⟩
    have : k = k' := by simpa [nodeKey] using hk'
    subst this
    exact hk

theorem word_mem_wordKeys :
    ∀ (L : List Segment) (k : String) (r : TokenRecord),
      Segment.word k r ∈ L → k ∈ wordKeys L := by
  intro L
  induction L with
  | nil => intro k r h; cases h
  | cons seg rest ih =>
    intro k r h
    rcases List.mem_cons.mp h with h1 | h1
    · subst h1
      simp [wordKeys]
    · cases seg with
      | word k2 r2 => exact List.mem_cons_of_mem _ (ih k r h1)
      | gap v pk nk => exact ih k r h1

/-- C2: when the current selection is a contiguous token span whose normalized
phrase matches the active selection and a successful translation `R` is present
(not loading), the rendered output contains the translation node exactly once —
displayed as `leading ++ R ++ trailing` in the position of the first selected
token — renders none of the other selected tokens, and suppresses every gap
strictly inside the selected range. -/
theorem renderer_inline_translation_once
    (p : RenderParams) (A mid Z : List Segment) (k0 : String) (r0 : TokenRecord)
    (R P : List Char)
    (hsel : p.selectionKeys = k0 :: wordKeys mid)
    (hk0 : k0 ∉ wordKeys mid)
    (hA : ∀ k r, Segment.word k r ∈ A → k ∉ p.selectionKeys)
    (hZ : ∀ k r, Segment.word k r ∈ Z → k ∉ p.selectionKeys)
    (hmidGap : ∀ v pk nk, Segment.gap v pk nk ∈ mid →
      ∃ a b, pk = some a ∧ nk = some b ∧
        a ∈ p.selectionKeys ∧ b ∈ p.selectionKeys)
    (htw : p.translatedWord = some R) (hRne : R ≠ [])
    (hsn : p.selectionNormalized = some P) (hPne : P ≠ [])
    (han : p.activeSelectionNormalized = some P)
    (hload : p.isTranslating = false) :
    renderText p (A ++ (Segment.word k0 r0 :: mid) ++ Z) =
        renderText p A ++
          RenderNode.tokenSpan k0 (r0.leading ++ R ++ r0.trailing)
              (if (translationLabelOf p).isEmpty then r0.token
                else translationLabelOf p) true true ::
            renderText p Z ∧
      (renderText p (A ++ (Segment.word k0 r0 :: mid) ++ Z)).filter
          isTranslationNode =
        [RenderNode.tokenSpan k0 (r0.leading ++ R ++ r0.trailing)
          (if (translationLabelOf p).isEmpty then r0.token
            else translationLabelOf p) true true] ∧
      ∀ k ∈ wordKeys mid,
        ∀ n ∈ renderText p (A ++ (Segment.word k0 r0 :: mid) ++ Z),
          nodeKey n ≠ some k := by
  have hact : hasActiveTranslation p = true := by
    unfold hasActiveTranslation isTruthy
    rw [htw, hsn, han, hload]
    simp [List.isEmpty_iff, hPne, hRne]
  have hhead : p.selectionKeys.head? = some k0 := by
    rw [hsel]
    rfl
  have hcontk0 : p.selectionKeys.contains k0 = true := by
    rw [hsel]
    simp
  have hword0 : renderSegment p (.word k0 r0) =
      [RenderNode.tokenSpan k0 (r0.leading ++ R ++ r0.trailing)
        (if (translationLabelOf p).isEmpty then r0.token
          else translationLabelOf p) true true] := by
    simp only [renderSegment, hcontk0, hhead, hact, htw]
    simp [List.isEmpty_iff]
  have hmid : ∀ seg ∈ mid, renderSegment p seg = [] := by
    intro seg hseg
    cases seg with
    | word k r =>
      have hkw : k ∈ wordKeys mid := word_mem_wordKeys mid k r hseg
      have hkin : k ∈ p.selectionKeys := by
        rw [hsel]
        exact List.mem_cons_of_mem _ hkw
      have hcont : p.selectionKeys.contains k = true := by simpa using hkin
      have hne : (some k0 == some k) = false := by
        have hne' : k0 ≠ k := fun he => hk0 (he ▸ hkw)
        simp [hne']
      simp only [renderSegment, hcont, hhead, hact, hne]
      simp
    | gap v pk nk =>
      obtain ⟨a, b, hpk, hnk, hain, hbin⟩ := hmidGap v pk nk hseg
      subst hpk
      subst hnk
      have ha' : p.selectionKeys.contains a = true := by simpa using hain
      have hb' : p.selectionKeys.contains b = true := by simpa using hbin
      simp only [renderSegment, hact, ha', hb']
      simp
  have hmidnil : renderText p mid = [] := List.flatMap_eq_nil_iff.mpr hmid
  have hmain : renderText p (A ++ (Segment.word k0 r0 :: mid) ++ Z) =
      renderText p A ++
        RenderNode.tokenSpan k0 (r0.leading ++ R ++ r0.trailing)
            (if (translationLabelOf p).isEmpty then r0.token
              else translationLabelOf p) true true ::
          renderText p Z := by
    rw [renderText_append, renderText_append,
      show renderText p (Segment.word k0 r0 :: mid) =
        renderSegment p (.word k0 r0) ++ renderText p mid from List.flatMap_cons ..,
      hword0, hmidnil]
    simp
  refine ⟨hmain, ?_, ?_⟩
  · rw [hmain, List.filter_append]
    have hfA : (renderText p A).filter isTranslationNode = [] := by
      rw [List.filter_eq_nil_iff]
      intro n hn
      simp [(renderText_no_translation_nodes p A hA n hn).1]
    have hfZ : (renderText p Z).filter isTranslationNode = [] := by
      rw [List.filter_eq_nil_iff]
      intro n hn
      simp [(renderText_no_translation_nodes p Z hZ n hn).1]
    rw [hfA, List.filter_cons_of_pos (by rfl), hfZ]
    rfl
  · intro k hkmid n hn
    have hkin : k ∈ p.selectionKeys := by
      rw [hsel]
      exact List.mem_cons_of_mem _ hkmid
    rw [hmain] at hn
    rcases List.mem_append.mp hn with hnA | hnBC
    · intro hkey
      exact (renderText_no_translation_nodes p A hA n hnA).2 k hkey hkin
    · rcases List.mem_cons.mp hnBC with hnode | hnZ
      · subst hnode
        have hne' : k0 ≠ k := fun he => hk0 (he ▸ hkmid)
        simp [nodeKey, hne']
      · intro hkey
        exact (renderText_no_translation_nodes p Z hZ n hnZ).2 k hkey hkin

theorem renderer_inline_translation_once_witness :
    (exampleBefore ++
        (Segment.word "t-word-1" (mkTokenRecord "t" 1 "quick".data) :: exampleInner) ++
        exampleAfter = segmentsOf "t" "The quick brown fox".data) ∧
      (renderText exampleParams
          (exampleBefore ++
            (Segment.word "t-word-1" (mkTokenRecord "t" 1 "quick".data) ::
              exampleInner) ++ exampleAfter)).filter isTranslationNode =
        [RenderNode.tokenSpan "t-word-1"
          ((mkTokenRecord "t" 1 "quick".data).leading ++ "rápido marrom".data ++
            (mkTokenRecord "t" 1 "quick".data).trailing)
          (if (translationLabelOf exampleParams).isEmpty then
            (mkTokenRecord "t" 1 "quick".data).token
          else translationLabelOf exampleParams) true true] :=
  ⟨by decide,
   (renderer_inline_translation_once exampleParams exampleBefore exampleInner
      exampleAfter "t-word-1" (mkTokenRecord "t" 1 "quick".data)
      ("rápido marrom".data) ("quick brown".data)
      (by decide)
      (by decide)
      (by
        intro k r h
        simp only [exampleBefore, List.mem_cons, List.not_mem_nil, or_false] at h
        rcases h with h | h
        · injection h with hk _
          subst hk
          decide
        · exact Segment.noConfusion h)
      (by
        intro k r h
        simp only [exampleAfter, List.mem_cons, List.not_mem_nil, or_false] at h
        rcases h with h | h
        · exact Segment.noConfusion h
        · injection h with hk _
          subst hk
          decide)
      (by
        intro v pk nk h
        simp only [exampleInner, List.mem_cons, List.not_mem_nil, or_false] at h
        rcases h with h | h
        · injection h with hv hp hn
          subst hp
          subst hn
          exact ⟨"t-word-1", "t-word-2", rfl, rfl, by decide, by decide⟩
        · exact Segment.noConfusion h)
      rfl (by decide) rfl (by decide) rfl rfl).2.1⟩

theorem mem_abortCurrent (s : SpaceState) (j : Nat) (hj : j ∈ abortCurrent s) :
    j ∈ s.aborted ∨ s.controller = some j := by
  unfold abortCurrent at hj
  cases hcs : s.controller with
  | none =>
    rw [hcs] at hj
    exact Or.inl hj
  | some j0 =>
    rw [hcs] at hj
    rcases List.mem_cons.mp hj with h | h
    · subst h
      exact Or.inr rfl
    · exact Or.inl h

theorem mem_abortCurrent_of_mem (s : SpaceState) (j : Nat) (hj : j ∈ s.aborted) :
    j ∈ abortCurrent s := by
  unfold abortCurrent
  cases s.controller with
  | none => exact hj
  | some j0 => exact List.mem_cons_of_mem _ hj

theorem mem_abortCurrent_of_controller (s : SpaceState) (j : Nat)
    (hj : s.controller = some j) : j ∈ abortCurrent s := by
  unfold abortCurrent
  rw [hj]
  exact List.mem_cons_self _ _

theorem applySettle_aborted (s : SpaceState) (id : Nat) (o : Outcome) :
    (applySettle s id o).aborted = s.aborted := by
  unfold applySettle
  cases o <;> dsimp only <;> split <;> rfl

theorem applySettle_nextControllerId (s : SpaceState) (id : Nat) (o : Outcome) :
    (applySettle s id o).nextControllerId = s.nextControllerId := by
  unfold applySettle
  cases o <;> dsimp only <;> split <;> rfl

theorem applySettle_controller_cases (s : SpaceState) (id : Nat) (o : Outcome) :
    (applySettle s id o).controller = s.controller ∨
      (applySettle s id o).controller = none := by
  unfold applySettle
  cases o <;> dsimp only <;> split
  · exact Or.inr rfl
  · exact Or.inl rfl
  · exact Or.inr rfl
  · exact Or.inl rfl
  · exact Or.inr rfl
  · exact Or.inl rfl

theorem applySettle_abortError_fields (s : SpaceState) (id : Nat)
    (hcne : ¬s.controller = some id) :
    (applySettle s id .abortError).translatedWord = s.translatedWord ∧
      (applySettle s id .abortError).detectedLanguage = s.detectedLanguage ∧
      (applySettle s id .abortError).translationError = s.translationError ∧
      (applySettle s id .abortError).isTranslatingWord = s.isTranslatingWord ∧
      (applySettle s id .abortError).selectedTextInfo = s.selectedTextInfo := by
  unfold applySettle
  dsimp only
  rw [if_neg hcne]
  exact ⟨rfl, rfl, rfl, rfl, rfl⟩

theorem spaceInv_step (s : SpaceState) (e : SpaceEvent) (hInv : SpaceInv s) :
    SpaceInv (stepE s e) := by
  obtain ⟨h1, h2⟩ := hInv
  cases e with
  | selChange t =>
    show SpaceInv (selectionChange s t)
    unfold selectionChange
    by_cases he : (jsTrim (collapseWs (t.getD []))).isEmpty = true
    · rw [if_pos he]
      constructor
      · intro j hj
        cases hj
      · intro j hj
        rcases mem_abortCurrent s j hj with h | h
        · exact h2 j h
        · exact (h1 j h).2
    · rw [if_neg he]
      constructor
      · intro j hj
        cases hj
        constructor
        · intro hmem
          rcases mem_abortCurrent s _ hmem with h | h
          · exact absurd (h2 _ h) (lt_irrefl _)
          · exact absurd (h1 _ h).2 (lt_irrefl _)
        · exact Nat.lt_succ_self _
      · intro j hj
        rcases mem_abortCurrent s j hj with h | h
        · exact Nat.lt_succ_of_lt (h2 j h)
        · exact Nat.lt_succ_of_lt (h1 j h).2
  | settle id o =>
    show SpaceInv (if settleEnabled s id o then applySettle s id o else s)
    split
    · constructor
      · intro j hj
        rcases applySettle_controller_cases s id o with h | h
        · rw [h] at hj
          rw [applySettle_aborted, applySettle_nextControllerId]
          exact h1 j hj
        · rw [h] at hj
          cases hj
      · intro j hj
        rw [applySettle_aborted] at hj
        rw [applySettle_nextControllerId]
        exact h2 j hj
    · exact ⟨h1, h2⟩

theorem spaceInv_run (es : List SpaceEvent) :
    ∀ s : SpaceState, SpaceInv s → SpaceInv (runE s es) := by
  induction es with
  | nil => intro s h; exact h
  | cons e es ih => intro s h; exact ih (stepE s e) (spaceInv_step s e h)

theorem spaceInv_init : SpaceInv spaceInit := by
  constructor
  · intro j hj
    cases hj
  · intro j hj
    cases hj

theorem aborted_mono_step (s : SpaceState) (e : SpaceEvent) (id : Nat)
    (h : id ∈ s.aborted) : id ∈ (stepE s e).aborted := by
  cases e with
  | selChange t =>
    show id ∈ (selectionChange s t).aborted
    unfold selectionChange
    by_cases he : (jsTrim (collapseWs (t.getD []))).isEmpty = true
    · rw [if_pos he]
      exact mem_abortCurrent_of_mem s id h
    · rw [if_neg he]
      exact mem_abortCurrent_of_mem s id h
  | settle id2 o =>
    show id ∈ (if settleEnabled s id2 o then applySettle s id2 o else s).aborted
    split
    · rw [applySettle_aborted]
      exact h
    · exact h

theorem aborted_mono_run (es : List SpaceEvent) :
    ∀ (s : SpaceState) (id : Nat), id ∈ s.aborted → id ∈ (runE s es).aborted := by
  induction es with
  | nil => intro s id h; exact h
  | cons e es ih => intro s id h; exact ih (stepE s e) id (aborted_mono_step s e id h)

/-- C1: a new non-empty selection aborts the in-flight request of the previous
selection, and from then on that stale request can never change the displayed
translation state: its successful or failed settlement is impossible (the
aborted fetch only rejects with `AbortError`, modelled as a vacuous step), and
its `AbortError` settlement leaves `translatedWord`, `detectedLanguage`,
`translationError`, the loading flag and the selection untouched — only the
request belonging to the currently active selection can set
`translatedWord`/`detectedLanguage`. -/
theorem stale_translation_never_applied
    (s : SpaceState) (hInv : SpaceInv s) (id1 : Nat) (hc : s.controller = some id1)
    (t : List Char) (ht : (jsTrim (collapseWs t)).isEmpty = false) :
    id1 ∈ (stepE s (.selChange (some t))).aborted ∧
      ∀ es : List SpaceEvent,
        (∀ tw dl,
          stepE (runE (stepE s (.selChange (some t))) es) (.settle id1 (.success tw dl)) =
            runE (stepE s (.selChange (some t))) es) ∧
        (∀ msg,
          stepE (runE (stepE s (.selChange (some t))) es) (.settle id1 (.failure msg)) =
            runE (stepE s (.selChange (some t))) es) ∧
        (stepE (runE (stepE s (.selChange (some t))) es)
              (.settle id1 .abortError)).translatedWord =
            (runE (stepE s (.selChange (some t))) es).translatedWord ∧
        (stepE (runE (stepE s (.selChange (some t))) es)
              (.settle id1 .abortError)).detectedLanguage =
            (runE (stepE s (.selChange (some t))) es).detectedLanguage ∧
        (stepE (runE (stepE s (.selChange (some t))) es)
              (.settle id1 .abortError)).translationError =
            (runE (stepE s (.selChange (some t))) es).translationError ∧
        (stepE (runE (stepE s (.selChange (some t))) es)
              (.settle id1 .abortError)).selectedTextInfo =
            (runE (stepE s (.selChange (some t))) es).selectedTextInfo := by
  have habort : id1 ∈ (stepE s (.selChange (some t))).aborted := by
    show id1 ∈ (selectionChange s (some t)).aborted
    unfold selectionChange
    rw [if_neg (by simpa using ht)]
    exact mem_abortCurrent_of_controller s id1 hc
  refine ⟨habort, fun es => ?_⟩
  set S := runE (stepE s (.selChange (some t))) es with hS
  have hmem : id1 ∈ S.aborted := aborted_mono_run es _ id1 habort
  have hcontains : S.aborted.contains id1 = true := by simpa using hmem
  have hInv'' : SpaceInv S := spaceInv_run es _ (spaceInv_step s _ hInv)
  have hcne : ¬S.controller = some id1 := fun hceq => (hInv''.1 id1 hceq).1 hmem
  obtain ⟨f1, f2, f3, _, f5⟩ := applySettle_abortError_fields S id1 hcne
  have hdis : ∀ o : Outcome, o ≠ .abortError → settleEnabled S id1 o = false := by
    intro o ho
    cases o with
    | success tw dl =>
      unfold settleEnabled
      rw [hcontains]
      simp
    | failure msg =>
      unfold settleEnabled
      rw [hcontains]
      simp
    | abortError => exact absurd rfl ho
  refine ⟨?_, ?_, ?_, ?_, ?_, ?_⟩
  · intro tw dl
    show (if settleEnabled S id1 (.success tw dl) then
        applySettle S id1 (.success tw dl) else S) = S
    rw [if_neg (by simp [hdis (.success tw dl) (by simp)])]
  · intro msg
    show (if settleEnabled S id1 (.failure msg) then
        applySettle S id1 (.failure msg) else S) = S
    rw [if_neg (by simp [hdis (.failure msg) (by simp)])]
  · show (if settleEnabled S id1 .abortError then
        applySettle S id1 .abortError else S).translatedWord = S.translatedWord
    split
    · exact f1
    · rfl
  · show (if settleEnabled S id1 .abortError then
        applySettle S id1 .abortError else S).detectedLanguage = S.detectedLanguage
    split
    · exact f2
    · rfl
  · show (if settleEnabled S id1 .abortError then
        applySettle S id1 .abortError else S).translationError = S.translationError
    split
    · exact f3
    · rfl
  · show (if settleEnabled S id1 .abortError then
        applySettle S id1 .abortError else S).selectedTextInfo = S.selectedTextInfo
    split
    · exact f5
    · rfl

theorem stale_translation_never_applied_witness :
    0 ∈ (stepE (stepE spaceInit (.selChange (some ['u', 'n', 'o'])))
        (.selChange (some ['d', 'o', 's']))).aborted :=
  (stale_translation_never_applied (stepE spaceInit (.selChange (some ['u', 'n', 'o'])))
    (spaceInv_step spaceInit (.selChange (some ['u', 'n', 'o'])) spaceInv_init)
    0 rfl ['d', 'o', 's'] (by decide)).1

/-- C5: clearing the selection while a translation request is in flight emits
`null` from the viewer, cancels the request and resets all translation state
(result, detected language, error, loading flag) to empty; the canceled
request's later settlement surfaces no error. -/
theorem clear_selection_cancels_and_resets
    (s : SpaceState) (id : Nat) (hc : s.controller = some id) (v : ViewerState) :
    (clearSelection v).2 = some none ∧
      (stepE s (.selChange none)).translatedWord = none ∧
      (stepE s (.selChange none)).detectedLanguage = none ∧
      (stepE s (.selChange none)).translationError = none ∧
      (stepE s (.selChange none)).isTranslatingWord = false ∧
      (stepE s (.selChange none)).selectedTextInfo = none ∧
      (stepE s (.selChange none)).controller = none ∧
      id ∈ (stepE s (.selChange none)).aborted ∧
      ∀ o : Outcome,
        (stepE (stepE s (.selChange none)) (.settle id o)).translationError = none := by
  have hstep : stepE s (.selChange none) =
      { s with
          controller := none
          aborted := abortCurrent s
          selectedTextInfo := none
          translatedWord := none
          detectedLanguage := none
          translationError := none
          isTranslatingWord := false } := by
    show selectionChange s none = _
    unfold selectionChange
    rw [if_pos (by decide)]
  have habort : id ∈ (stepE s (.selChange none)).aborted := by
    rw [hstep]
    exact mem_abortCurrent_of_controller s id hc
  refine ⟨rfl, by rw [hstep], by rw [hstep], by rw [hstep], by rw [hstep],
    by rw [hstep], by rw [hstep], habort, ?_⟩
  intro o
  have hcontains : (stepE s (.selChange none)).aborted.contains id = true := by
    simpa using habort
  have hcne : ¬(stepE s (.selChange none)).controller = some id := by
    rw [hstep]
    intro h
    cases h
  have herr : (stepE s (.selChange none)).translationError = none := by rw [hstep]
  cases o with
  | success tw dl =>
    show (if settleEnabled (stepE s (.selChange none)) id (.success tw dl) then
        applySettle (stepE s (.selChange none)) id (.success tw dl)
      else stepE s (.selChange none)).translationError = none
    rw [if_neg (by
      unfold settleEnabled
      rw [hcontains]
      simp)]
    exact herr
  | failure msg =>
    show (if settleEnabled (stepE s (.selChange none)) id (.failure msg) then
        applySettle (stepE s (.selChange none)) id (.failure msg)
      else stepE s (.selChange none)).translationError = none
    rw [if_neg (by
      unfold settleEnabled
      rw [hcontains]
      simp)]
    exact herr
  | abortError =>
    obtain ⟨_, _, f3, _, _⟩ :=
      applySettle_abortError_fields (stepE s (.selChange none)) id hcne
    show (if settleEnabled (stepE s (.selChange none)) id .abortError then
        applySettle (stepE s (.selChange none)) id .abortError
      else stepE s (.selChange none)).translationError = none
    split
    · rw [f3]
      exact herr
    · exact herr

theorem clear_selection_cancels_and_resets_witness :
    (clearSelection viewerInit).2 = some none ∧
      (stepE (stepE spaceInit (.selChange (some ['u', 'n', 'o'])))
          (.selChange none)).translatedWord = none ∧
      (stepE (stepE spaceInit (.selChange (some ['u', 'n', 'o'])))
          (.selChange none)).detectedLanguage = none ∧
      (stepE (stepE spaceInit (.selChange (some ['u', 'n', 'o'])))
          (.selChange none)).translationError = none ∧
      (stepE (stepE spaceInit (.selChange (some ['u', 'n', 'o'])))
          (.selChange none)).isTranslatingWord = false ∧
      (stepE (stepE spaceInit (.selChange (some ['u', 'n', 'o'])))
          (.selChange none)).selectedTextInfo = none ∧
      (stepE (stepE spaceInit (.selChange (some ['u', 'n', 'o'])))
          (.selChange none)).controller = none ∧
      0 ∈ (stepE (stepE spaceInit (.selChange (some ['u', 'n', 'o'])))
          (.selChange none)).aborted ∧
      ∀ o : Outcome,
        (stepE (stepE (stepE spaceInit (.selChange (some ['u', 'n', 'o'])))
            (.selChange none)) (.settle 0 o)).translationError = none :=
  clear_selection_cancels_and_resets
    (stepE spaceInit (.selChange (some ['u', 'n', 'o']))) 0 rfl viewerInit

/-- C6 counterexample: the token `"--"` consists only of punctuation, yet its
normalized value is `"--"` (hyphens are in the kept character class), not
`null` — and emitting it to the translation path does issue a request (a fresh
controller and an in-flight `translateWord` call). -/
theorem punctuation_selection_counterexample :
    ((applySelection (tokensOf "t" ['-', '-']) viewerInit "t-word-0" "t-word-0").1).map
        SelectionSnapshot.normalized = some (some ['-', '-']) ∧
      (stepE spaceInit (.selChange (some ['-', '-']))).controller = some 0 ∧
      (stepE spaceInit (.selChange (some ['-', '-']))).inFlight = [0] := by
  decide

/-- C6 (amended): for every selection whose covered tokens all normalize to the
empty string (tokens made only of characters outside the
letter/number/apostrophe/hyphen class, e.g. `"!!"`), the selection's normalized
value is `null`, and the `null` reaching `handleSelectionChange` issues no
translation request (no new controller identity is allocated and nothing new
is in flight). -/
theorem punctuation_only_selection_amended
    (tokens : List TokenRecord) (v : ViewerState) (k1 k2 : String)
    (snap : SelectionSnapshot)
    (hpunct : ∀ r ∈ tokens, r.key ∈ snap.keys → r.normalized = [])
    (happly : (applySelection tokens v k1 k2).1 = some snap) :
    snap.normalized = none ∧
      ∀ s : SpaceState,
        (stepE s (.selChange none)).controller = none ∧
        (stepE s (.selChange none)).inFlight = s.inFlight ∧
        (stepE s (.selChange none)).nextControllerId = s.nextControllerId := by
  have hnorequest : ∀ s : SpaceState,
      (stepE s (.selChange none)).controller = none ∧
      (stepE s (.selChange none)).inFlight = s.inFlight ∧
      (stepE s (.selChange none)).nextControllerId = s.nextControllerId := by
    intro s
    have hstep : stepE s (.selChange none) =
        { s with
            controller := none
            aborted := abortCurrent s
            selectedTextInfo := none
            translatedWord := none
            detectedLanguage := none
            translationError := none
            isTranslatingWord := false } := by
      show selectionChange s none = _
      unfold selectionChange
      rw [if_pos (by decide)]
    rw [hstep]
    exact ⟨rfl, rfl, rfl⟩
  refine ⟨?_, hnorequest⟩
  unfold applySelection at happly
  by_cases hlen : tokens.length = 0
  · rw [if_pos hlen] at happly
    exact absurd happly (by simp)
  · rw [if_neg hlen] at happly
    cases hfa : tokens.findIdx? (fun item => item.key = k1) with
    | none =>
      rw [hfa] at happly
      exact absurd happly (by simp)
    | some i =>
      rw [hfa] at happly
      cases hfb : tokens.findIdx? (fun item => item.key = k2) with
      | none =>
        rw [hfb] at happly
        exact absurd happly (by simp)
      | some j =>
        rw [hfb] at happly
        dsimp only at happly
        have hsnap := (Option.some.inj happly).symm
        subst hsnap
        dsimp only
        have hfilter :
            ((((tokens.drop (if i ≤ j then i else j)).take
                ((if i ≤ j then j else i) + 1 - (if i ≤ j then i else j))).map
              (fun item => item.normalized)).filter (fun n => !n.isEmpty)) = [] := by
          rw [List.filter_eq_nil_iff]
          intro n hn
          obtain ⟨r, hr, hrn⟩ := List.mem_map.mp hn
          have hrt : r ∈ tokens :=
            ((List.take_sublist _ _).trans (List.drop_sublist _ _)).subset hr
          have hrk : r.key ∈
              ((tokens.drop (if i ≤ j then i else j)).take
                ((if i ≤ j then j else i) + 1 - (if i ≤ j then i else j))).map
                (fun item => item.key) :=
            List.mem_map_of_mem _ hr
          have hnorm : r.normalized = [] := hpunct r hrt hrk
          rw [← hrn, hnorm]
          simp
        rw [hfilter]
        simp [List.intercalate, collapseWs, jsTrim]

theorem punctuation_only_selection_amended_witness :
    (∀ r ∈ tokensOf "t" ['!', '!'],
        r.key ∈ (⟨["t-word-0"], none⟩ : SelectionSnapshot).keys → r.normalized = []) ∧
      (applySelection (tokensOf "t" ['!', '!']) viewerInit "t-word-0" "t-word-0").1 =
        some ⟨["t-word-0"], none⟩ ∧
      (⟨["t-word-0"], none⟩ : SelectionSnapshot).normalized = none :=
  ⟨by decide, by decide,
   (punctuation_only_selection_amended (tokensOf "t" ['!', '!']) viewerInit
      "t-word-0" "t-word-0" ⟨["t-word-0"], none⟩ (by decide) (by decide)).1⟩

end Lingo
